import Mathlib

/-!
# Chess board diagram printer (`Game_::print`)

A shallow embedding of `cpp_client::chess::Game_::print` from
`Joueur.cpp/games/chess/game.cpp`, and theorems about the text it writes.

Modelling conventions.

* `std::cout` is modelled at two levels. `printTo` works on the list of characters written:
  every `std::cout << x` appends to it, which is what the insertions do on a good stream
  with its default formatting, and no statement of `print` changes the formatting.
  `printOn` works on `Ostream`, which also carries the `showpos` flag, the pending field
  width and the good state that the insertions read; `printOn_plain` shows that the two
  agree on a good stream with no flag and no width set.
* `std::string` is a Lean `String`; the range-for over `FEN` walks its characters.
  `isalpha` and `isdigit` are the "C" locale classifications (`A`-`Z`, `a`-`z`
  and `0`-`9`), which is what `Char.isAlpha` and `Char.isDigit` compute.
* `int` values are mathematical integers: `cnt` counts the `/` characters seen,
  so it stays far inside the range of `int` for any string shorter than `2^31`.
-/

namespace cpp_client.chess

/-! ## The program -/

/-- The constant `Wid_Hgh` of `print`. -/
def Wid_Hgh : Nat := 8

/-- The initial value of `i_file`. -/
def i_file : Char := 'a'

/-- The initial (and only) value of `i_rank`. -/
def i_rank : Int := 8

/-- The statement `std::cout << s` for a string literal `s`. -/
def put (cout : List Char) (s : String) : List Char := cout ++ s.toList

/-- The statement `std::cout << c` for a `char`. -/
def putChar (cout : List Char) (c : Char) : List Char := cout ++ [c]

/-- The statement `std::cout << n` for an `int`. -/
def putInt (cout : List Char) (n : Int) : List Char := cout ++ (toString n).toList

/-- The loop `for(int i=0; i<Wid_Hgh+1; i++) { std::cout << "+---"; }`. -/
def borderLoop (cout : List Char) : List Char :=
  (List.range (Wid_Hgh + 1)).foldl (fun o _ => put o "+---") cout

/-- The loop `for(int i=0; i<Wid_Hgh; i++) { std::cout << " | " << (char)(i_file+i); }`. -/
def fileLoop (cout : List Char) : List Char :=
  (List.range Wid_Hgh).foldl
    (fun o i => putChar (put o " | ") (Char.ofNat (i_file.toNat + i))) cout

/-- The loop `for(char k=c; k>'0'; k--) { std::cout << " |  "; }`, with `k` given by its
character code. -/
def emptyLoop : Nat → List Char → List Char
  | 0, cout => cout
  | k + 1, cout => if k + 1 > '0'.toNat then emptyLoop k (put cout " |  ") else cout

/-- The local state of the scan loop: the text written so far and the counter `cnt`. -/
structure Scan where
  /-- The text written to `std::cout`. -/
  cout : List Char
  /-- The variable `cnt`. -/
  cnt : Int

/-- The loop `for(auto c : FEN) { ... }`; the `break` on a space ends the recursion. -/
def scanLoop : List Char → Scan → Scan
  | [], st => st
  | c :: cs, st =>
    if c.isAlpha then
      scanLoop cs { st with cout := putChar (put st.cout " | ") c }
    else if c.isDigit then
      scanLoop cs { st with cout := emptyLoop c.toNat st.cout }
    else if c = '/' then
      scanLoop cs
        { cout := putInt (put (put (borderLoop (put st.cout " |\n")) "+\n") "| ") (i_rank - st.cnt)
          cnt := st.cnt + 1 }
    else if c = ' ' then
      st
    else
      scanLoop cs st

/-- The body of `Game_::print`, writing to the stream `cout` and returning the stream. -/
def printTo (fen : String) (cout : List Char) : List Char :=
  let FEN := fen
  let o := borderLoop cout
  let o := put o "+\n|  "
  let o := fileLoop o
  let o := put o " |\n"
  let o := borderLoop o
  let o := put o "+\n"
  let o := putInt (put o "| ") i_rank
  let st := scanLoop FEN.toList { cout := o, cnt := 1 }
  let o := put st.cout " |\n"
  let o := borderLoop o
  put o "+\n"

/-- The text `Game_::print` writes for the member `fen`, on a fresh stream. -/
def print (fen : String) : String := String.mk (printTo fen [])

/-! ## The diagram, described line by line -/

/-- A border line, without its newline. -/
def borderLine : List Char := "+---+---+---+---+---+---+---+---+---+".toList

/-- The header row the code writes, without its newline. -/
def headerLine : List Char := "|   | a | b | c | d | e | f | g | h |".toList

/-- The piece-placement field: the part of the string before its first space. -/
def field (fen : String) : List Char := fen.toList.takeWhile (fun c => c != ' ')

/-- The rank descriptions: the segments of the field between `/` characters. -/
def ranks (fen : String) : List (List Char) := (field fen).splitOn '/'

/-- The face value of a digit character. -/
def digitValue (c : Char) : Nat := c.toNat - '0'.toNat

/-- The cell groups one character of a rank description stands for. -/
def cellGroups (c : Char) : List (List Char) :=
  if c.isAlpha then [[' ', '|', ' ', c]]
  else if c.isDigit then List.replicate (digitValue c) [' ', '|', ' ', ' ']
  else []

/-- The text of a data row between its row-start marker and its closing bar. -/
def rowBody (seg : List Char) : List Char := (seg.flatMap cellGroups).flatten

/-- The decimal text of the rank label of data row `j` (counting from 0). -/
def rankLabel (j : Nat) : List Char := (toString ((8 : Int) - (j : Int))).toList

/-- Data row `j` for the rank description `seg`, without its newline. -/
def dataRow (j : Nat) (seg : List Char) : List Char :=
  ['|', ' '] ++ rankLabel j ++ rowBody seg ++ [' ', '|']

/-- The lines of the data rows from row `j` on, each followed by a border line. -/
def rowLines : Nat → List (List Char) → List (List Char)
  | _, [] => []
  | j, seg :: rest => dataRow j seg :: borderLine :: rowLines (j + 1) rest

/-- The lines of the text, split at newlines; a text ending in a newline has `[]` last. -/
def outputLines (fen : String) : List (List Char) := (print fen).toList.splitOn '\n'

/-- The text a list of lines stands for: every line followed by a newline. -/
def unlines (ls : List (List Char)) : List Char := (ls.map (fun l => l ++ ['\n'])).flatten

/-- The text the scan loop adds to the stream for the characters `cs`, when it starts with
the counter at `cnt`. -/
def scanText : Int → List Char → List Char
  | _, [] => []
  | cnt, c :: cs =>
    if c.isAlpha then [' ', '|', ' ', c] ++ scanText cnt cs
    else if c.isDigit then
      (List.replicate (digitValue c) [' ', '|', ' ', ' ']).flatten ++ scanText cnt cs
    else if c = '/' then
      [' ', '|', '\n'] ++ borderLine ++ ['\n'] ++ ['|', ' '] ++ (toString (i_rank - cnt)).toList
        ++ scanText (cnt + 1) cs
    else if c = ' ' then []
    else scanText cnt cs

/-- The text that closes a data row: the closing bar, a newline, and a border line. -/
def rowEnd : List Char := [' ', '|', '\n'] ++ borderLine ++ ['\n']

/-- The data rows from row `j` on, one for each rank description. -/
def dataRows : Nat → List (List Char) → List (List Char)
  | _, [] => []
  | j, seg :: rest => dataRow j seg :: dataRows (j + 1) rest

/-- The text of one cell character as the specification words it: a letter gives one cell
showing the letter, a digit of value `n` gives `n` blank cells. -/
def cellText (c : Char) : List Char :=
  if c.isAlpha then [' ', '|', ' ', c]
  else if c.isDigit then (List.replicate (digitValue c) [' ', '|', ' ', ' ']).flatten
  else []

/-- The file letters of the header row. -/
def fileLetters : List Char := ['a', 'b', 'c', 'd', 'e', 'f', 'g', 'h']

/-- The header row as the specification words it: two leading spaces, then ` | f` for each
file letter `f`, then ` |`. -/
def specHeaderLine : List Char :=
  [' ', ' '] ++ fileLetters.flatMap (fun f => [' ', '|', ' ', f]) ++ [' ', '|']

/-- The characters the scan loop acts on: letters, digits, `/` and the space. -/
def expected (c : Char) : Bool := c.isAlpha || c.isDigit || c == '/' || c == ' '

/-- The values shown by the cell groups of a text: the fourth character of each complete
group of four characters; a shorter remainder is dropped. -/
def cellValues : List Char → List Char
  | _ :: _ :: _ :: v :: rest => v :: cellValues rest
  | _ => []

/-- The cell values of a data row: those of the text after the marker `| ` and the rank
label, which ends at the next space. -/
def rowCells (row : List Char) : List Char :=
  cellValues ((row.drop 2).dropWhile (fun c => c != ' '))

/-- Every second element of a list, starting with the first; a single last element is
dropped. -/
def everyOther : List (List Char) → List (List Char)
  | a :: _ :: rest => a :: everyOther rest
  | _ => []

/-- The data rows among the lines of a text: every second line after the three header
lines. -/
def dataLines (lines : List (List Char)) : List (List Char) := everyOther (lines.drop 3)

/-- The cell values one character of a rank description stands for. -/
def shown (c : Char) : List Char :=
  if c.isAlpha then [c]
  else if c.isDigit then List.replicate (digitValue c) ' '
  else []

/-- The number of files a rank description stands for: the number of its letters plus the
sum of the values of its digits. -/
def fileCount (seg : List Char) : Nat :=
  (seg.filter Char.isAlpha).length + ((seg.filter Char.isDigit).map digitValue).sum

/-! ## The stream with its formatting state -/

/-- The state of `std::cout` that the insertions of `print` read and write: the text written
so far, the `showpos` flag, the pending field width, and whether the stream is good. The
rest of the formatting state is taken at its default: decimal base, fill character space,
padding on the left. -/
structure Ostream where
  /-- The text written so far. -/
  text : List Char
  /-- The flag `std::ios_base::showpos`. -/
  showpos : Bool
  /-- The pending field width, `std::cout.width()`. -/
  width : Nat
  /-- Whether the stream is good: no error bit is set. -/
  good : Bool
deriving DecidableEq

/-- A formatted insertion of the characters `cs`: a stream that is not good is left as it
is; otherwise the characters are written, padded on the left with spaces up to the pending
width, and the width is reset to 0. -/
def Ostream.insert (s : Ostream) (cs : List Char) : Ostream :=
  if s.good then
    { s with text := s.text ++ (List.replicate (s.width - cs.length) ' ' ++ cs), width := 0 }
  else s

/-- The statement `std::cout << s` for a string literal `s`, on a stream with its state. -/
def Ostream.putStr (s : Ostream) (lit : String) : Ostream := s.insert lit.toList

/-- The statement `std::cout << c` for a `char`, on a stream with its state. -/
def Ostream.putChar (s : Ostream) (c : Char) : Ostream := s.insert [c]

/-- The statement `std::cout << n` for an `int`, on a stream with its state: the decimal
text of `n`, with a leading `+` when `showpos` is set and `n` is not negative. -/
def Ostream.putInt (s : Ostream) (n : Int) : Ostream :=
  s.insert ((if s.showpos && decide (0 ≤ n) then ['+'] else []) ++ (toString n).toList)

/-- The loop `for(int i=0; i<Wid_Hgh+1; i++) { std::cout << "+---"; }`, on a stream with its
state. -/
def borderLoopOn (s : Ostream) : Ostream :=
  (List.range (Wid_Hgh + 1)).foldl (fun o _ => o.putStr "+---") s

/-- The loop `for(int i=0; i<Wid_Hgh; i++) { std::cout << " | " << (char)(i_file+i); }`, on
a stream with its state. -/
def fileLoopOn (s : Ostream) : Ostream :=
  (List.range Wid_Hgh).foldl
    (fun o i => (o.putStr " | ").putChar (Char.ofNat (i_file.toNat + i))) s

/-- The loop `for(char k=c; k>'0'; k--) { std::cout << " |  "; }`, on a stream with its
state. -/
def emptyLoopOn : Nat → Ostream → Ostream
  | 0, s => s
  | k + 1, s => if k + 1 > '0'.toNat then emptyLoopOn k (s.putStr " |  ") else s

/-- The loop `for(auto c : FEN) { ... }` on a stream with its state; the second component is
the variable `cnt`. -/
def scanLoopOn : List Char → Ostream × Int → Ostream × Int
  | [], st => st
  | c :: cs, st =>
    if c.isAlpha then
      scanLoopOn cs ((st.1.putStr " | ").putChar c, st.2)
    else if c.isDigit then
      scanLoopOn cs (emptyLoopOn c.toNat st.1, st.2)
    else if c = '/' then
      scanLoopOn cs
        ((((borderLoopOn (st.1.putStr " |\n")).putStr "+\n").putStr "| ").putInt (i_rank - st.2),
          st.2 + 1)
    else if c = ' ' then
      st
    else
      scanLoopOn cs st

/-- The body of `Game_::print` on a stream with its state. -/
def printOn (fen : String) (s : Ostream) : Ostream :=
  let FEN := fen
  let o := borderLoopOn s
  let o := o.putStr "+\n|  "
  let o := fileLoopOn o
  let o := o.putStr " |\n"
  let o := borderLoopOn o
  let o := o.putStr "+\n"
  let o := (o.putStr "| ").putInt i_rank
  let st := scanLoopOn FEN.toList (o, 1)
  let o := st.1.putStr " |\n"
  let o := borderLoopOn o
  o.putStr "+\n"

/-- The state a call of `print` can see: the member `fen` of the game object. -/
structure Game_ where
  /-- The member `fen`. -/
  fen : String
deriving DecidableEq

/-- A call of `Game_::print` on the object `g` with `std::cout` in the state `s`: the object
and the stream after the call. The body copies `fen` into the local `FEN` and assigns to no
member. -/
def Game_.print (g : Game_) (s : Ostream) : Game_ × Ostream :=
  (g, printOn g.fen s)

/-- The text written before the scan loop starts: the three header lines and the row-start
marker of the first data row. -/
def headText : List Char :=
  unlines [borderLine, headerLine, borderLine] ++ ['|', ' '] ++ (toString i_rank).toList

/-! ## What the loops write -/

theorem borderLoop_eq (cout : List Char) :
    put (borderLoop cout) "+\n" = cout ++ borderLine ++ ['\n'] := by
  simp [borderLoop, put, Wid_Hgh, List.range_succ, borderLine]

theorem fileLoop_eq (cout : List Char) :
    put (fileLoop (put cout "+\n|  ")) " |\n" = put cout "+\n" ++ headerLine ++ ['\n'] := by
  simp [fileLoop, put, putChar, Wid_Hgh, List.range_succ, headerLine, i_file]

theorem emptyLoop_eq (k : Nat) (cout : List Char) :
    emptyLoop k cout =
      cout ++ (List.replicate (k - '0'.toNat) [' ', '|', ' ', ' ']).flatten := by
  have h0 : '0'.toNat = 48 := rfl
  induction k generalizing cout with
  | zero => simp [emptyLoop]
  | succ k ih =>
    unfold emptyLoop
    rw [h0] at ih ⊢
    split
    · rename_i h
      rw [ih]
      have h48 : k + 1 - 48 = (k - 48) + 1 := by omega
      rw [h48, List.replicate_succ]
      simp [put]
    · rename_i h
      have h48 : k + 1 - 48 = 0 := by omega
      simp [h48]

theorem scanLoop_cout (cs : List Char) (st : Scan) :
    (scanLoop cs st).cout = st.cout ++ scanText st.cnt cs := by
  induction cs generalizing st with
  | nil => simp [scanLoop, scanText]
  | cons c cs ih =>
    unfold scanLoop scanText
    split
    · rw [ih]; simp [put, putChar]
    · split
      · rw [ih, emptyLoop_eq]; simp [digitValue]
      · split
        · rw [ih]
          have hb := borderLoop_eq (put st.cout " |\n")
          simp only [hb]
          simp [put, putInt]
        · split
          · simp
          · rw [ih]

theorem scanText_takeWhile (cnt : Int) (cs : List Char) :
    scanText cnt (cs.takeWhile (fun c => c != ' ')) = scanText cnt cs := by
  induction cs generalizing cnt with
  | nil => rfl
  | cons c cs ih =>
    by_cases hc : c = ' '
    · subst hc
      simp [scanText]
    · have hne : (c != ' ') = true := by simpa using hc
      rw [List.takeWhile_cons, if_pos hne]
      unfold scanText
      simp only [ih]

theorem unlines_cons (l : List Char) (ls : List (List Char)) :
    unlines (l :: ls) = l ++ '\n' :: unlines ls := by
  simp [unlines]

theorem rowBody_nil : rowBody [] = [] := rfl

theorem rowBody_cons (c : Char) (seg : List Char) :
    rowBody (c :: seg) = (cellGroups c).flatten ++ rowBody seg := by
  simp [rowBody]

theorem scanText_cell (cnt : Int) (c : Char) (cs : List Char) (h1 : c ≠ '/') (h2 : c ≠ ' ') :
    scanText cnt (c :: cs) = (cellGroups c).flatten ++ scanText cnt cs := by
  rw [scanText]
  unfold cellGroups
  split
  · simp
  · split
    · rfl
    · simp [h1, h2]

theorem scanText_slash (cnt : Int) (cs : List Char) :
    scanText cnt ('/' :: cs) =
      [' ', '|', '\n'] ++ borderLine ++ ['\n'] ++ ['|', ' '] ++ (toString (i_rank - cnt)).toList
        ++ scanText (cnt + 1) cs := by
  rw [scanText]
  simp

theorem splitOn_ne_nil (cs : List Char) : ∃ s0 rest, cs.splitOn '/' = s0 :: rest := by
  cases h : cs.splitOn '/' with
  | nil => exact absurd h (List.splitOnP_ne_nil _ _)
  | cons a b => exact ⟨a, b, rfl⟩

theorem splitOn_slash (cs : List Char) : ('/' :: cs).splitOn '/' = [] :: cs.splitOn '/' := by
  rw [List.splitOn, List.splitOnP_cons]
  simp [List.splitOn]

theorem splitOn_other (c : Char) (cs : List Char) (h : c ≠ '/') :
    (c :: cs).splitOn '/' = (cs.splitOn '/').modifyHead (List.cons c) := by
  rw [List.splitOn, List.splitOnP_cons]
  simp [List.splitOn, h]

theorem unlines_rowLines (j : Nat) (seg : List Char) (rest : List (List Char)) :
    unlines (rowLines j (seg :: rest)) =
      ['|', ' '] ++ rankLabel j ++ (rowBody seg ++ (rowEnd ++ unlines (rowLines (j + 1) rest))) := by
  simp [rowLines, unlines, dataRow, rowEnd]

/-- The scan of a field without spaces, closed by the final bar and border, is the rest of
the first data row followed by the lines of the remaining rank descriptions. -/
theorem scanText_rows (cs : List Char) (hsp : ' ' ∉ cs) (j : Nat) (s0 : List Char)
    (rest : List (List Char)) (hs : cs.splitOn '/' = s0 :: rest) :
    scanText ((j : Int) + 1) cs ++ rowEnd =
      rowBody s0 ++ (rowEnd ++ unlines (rowLines (j + 1) rest)) := by
  induction cs generalizing j s0 rest with
  | nil =>
    simp [List.splitOn] at hs
    obtain ⟨rfl, rfl⟩ := hs
    simp [scanText, rowBody, rowLines, unlines]
  | cons c cs ih =>
    have hsp2 : ' ' ∉ cs := fun h => hsp (List.mem_cons_of_mem _ h)
    have hc : c ≠ ' ' := fun h => hsp (h ▸ List.mem_cons_self _ _)
    obtain ⟨s1, rest1, h1⟩ := splitOn_ne_nil cs
    by_cases hslash : c = '/'
    · subst hslash
      rw [splitOn_slash, h1] at hs
      obtain ⟨rfl, rfl⟩ := List.cons.inj hs
      have hi := ih hsp2 (j + 1) s1 rest1 h1
      push_cast at hi
      rw [scanText_slash, unlines_rowLines]
      simp only [List.append_assoc]
      rw [hi]
      have hl : (toString (i_rank - ((j : Int) + 1))).toList = rankLabel (j + 1) := by
        simp [rankLabel, i_rank]
      rw [hl]
      simp [rowBody, rowEnd]
    · rw [splitOn_other c cs hslash, h1] at hs
      obtain ⟨rfl, rfl⟩ := List.cons.inj hs
      rw [scanText_cell _ _ _ hslash hc, rowBody_cons, List.append_assoc, ih hsp2 j s1 rest1 h1,
        List.append_assoc]

theorem not_mem_field (fen : String) : ' ' ∉ field fen := by
  intro h
  have := List.mem_takeWhile_imp h
  simp at this

/-- The text of `print`: three header lines, then the data rows of the rank descriptions,
each followed by a border line. -/
theorem printTo_eq (fen : String) (cout : List Char) :
    printTo fen cout =
      cout ++ unlines ([borderLine, headerLine, borderLine] ++ rowLines 0 (ranks fen)) := by
  obtain ⟨s0, rest, h⟩ := splitOn_ne_nil (field fen)
  have hr := scanText_rows (field fen) (not_mem_field fen) 0 s0 rest h
  simp only [field, scanText_takeWhile] at hr
  simp only [printTo, fileLoop_eq, borderLoop_eq, scanLoop_cout]
  simp only [put, putInt, List.append_assoc]
  have he : " |\n".toList ++ (borderLine ++ ['\n']) = rowEnd := by simp [rowEnd]
  have hl : (toString i_rank).toList = rankLabel 0 := by simp [rankLabel, i_rank]
  simp only [Nat.cast_zero, zero_add] at hr
  rw [he, hr, hl, ranks, h]
  simp only [List.cons_append, List.nil_append, unlines_cons, unlines_rowLines]
  simp

/-! ## The characters of a rank label -/

theorem digitChar_isDigit (n : Nat) (h : n < 10) : (Nat.digitChar n).isDigit = true := by
  interval_cases n <;> decide

theorem toDigitsCore_isDigit (fuel n : Nat) (ds : List Char)
    (hds : ∀ c ∈ ds, c.isDigit = true) :
    ∀ c ∈ Nat.toDigitsCore 10 fuel n ds, c.isDigit = true := by
  induction fuel generalizing n ds with
  | zero => simpa [Nat.toDigitsCore] using hds
  | succ fuel ih =>
    have hd : (Nat.digitChar (n % 10)).isDigit = true :=
      digitChar_isDigit _ (Nat.mod_lt _ (by decide))
    have hds2 : ∀ c ∈ Nat.digitChar (n % 10) :: ds, c.isDigit = true := by
      intro c hc
      rcases List.mem_cons.mp hc with h | h
      · rw [h]; exact hd
      · exact hds c h
    unfold Nat.toDigitsCore
    simp only
    split
    · exact hds2
    · exact ih _ _ hds2

theorem toString_nat_isDigit (n : Nat) : ∀ c ∈ (toString n).toList, c.isDigit = true := by
  have : (toString n).toList = Nat.toDigitsCore 10 (n + 1) n [] := rfl
  rw [this]
  exact toDigitsCore_isDigit _ _ _ (by simp)

/-- A rank label is made of decimal digits and possibly a minus sign. -/
theorem toString_int_chars (n : Int) :
    ∀ c ∈ (toString n).toList, c.isDigit = true ∨ c = '-' := by
  intro c hc
  cases n with
  | ofNat m =>
    exact Or.inl (toString_nat_isDigit m c hc)
  | negSucc m =>
    have : (toString (Int.negSucc m)).toList = '-' :: (toString (m + 1)).toList := rfl
    rw [this] at hc
    rcases List.mem_cons.mp hc with h | h
    · exact Or.inr h
    · exact Or.inl (toString_nat_isDigit _ c h)

theorem rankLabel_chars (j : Nat) : ∀ c ∈ rankLabel j, c.isDigit = true ∨ c = '-' :=
  toString_int_chars _

/-! ## The lines of the text -/

theorem mem_cellGroups (c : Char) (g : List Char) (h : g ∈ cellGroups c) :
    (c.isAlpha = true ∧ g = [' ', '|', ' ', c]) ∨
      (c.isAlpha = false ∧ c.isDigit = true ∧ g = [' ', '|', ' ', ' ']) := by
  unfold cellGroups at h
  split at h
  · rename_i ha
    simp at h
    exact Or.inl ⟨ha, h⟩
  · rename_i ha
    split at h
    · rename_i hd
      have := List.eq_of_mem_replicate h
      exact Or.inr ⟨by simpa using ha, hd, this⟩
    · simp at h

theorem mem_rowBody (seg : List Char) (x : Char) (h : x ∈ rowBody seg) :
    x = ' ' ∨ x = '|' ∨ (x ∈ seg ∧ x.isAlpha = true) := by
  simp only [rowBody, List.mem_flatten, List.mem_flatMap] at h
  obtain ⟨g, ⟨c, hc, hg⟩, hx⟩ := h
  rcases mem_cellGroups c g hg with ⟨ha, rfl⟩ | ⟨_, _, rfl⟩
  · simp only [List.mem_cons, List.mem_singleton, List.not_mem_nil, or_false] at hx
    rcases hx with h | h | h | h
    · exact Or.inl h
    · exact Or.inr (Or.inl h)
    · exact Or.inl h
    · exact Or.inr (Or.inr ⟨h ▸ hc, h ▸ ha⟩)
  · simp only [List.mem_cons, List.mem_singleton, List.not_mem_nil, or_false] at hx
    rcases hx with h | h | h | h
    · exact Or.inl h
    · exact Or.inr (Or.inl h)
    · exact Or.inl h
    · exact Or.inl h

theorem newline_not_mem_dataRow (j : Nat) (seg : List Char) : '\n' ∉ dataRow j seg := by
  intro h
  simp only [dataRow, List.mem_append] at h
  rcases h with ((h | h) | h) | h
  · simp at h
  · rcases rankLabel_chars j _ h with h | h
    · exact absurd h (by decide)
    · exact absurd h (by decide)
  · rcases mem_rowBody seg _ h with h | h | ⟨_, h⟩
    · exact absurd h (by decide)
    · exact absurd h (by decide)
    · exact absurd h (by decide)
  · simp at h

theorem newline_not_mem_rowLines (j : Nat) (segs : List (List Char)) :
    ∀ l ∈ rowLines j segs, '\n' ∉ l := by
  induction segs generalizing j with
  | nil => simp [rowLines]
  | cons seg rest ih =>
    intro l hl
    simp only [rowLines, List.mem_cons] at hl
    rcases hl with rfl | rfl | hl
    · exact newline_not_mem_dataRow j seg
    · decide
    · exact ih _ l hl

/-- Splitting a text made of newline-free lines, each followed by a newline, gives back the
lines and one empty piece after the last newline. -/
theorem splitOn_unlines (ls : List (List Char)) (h : ∀ l ∈ ls, '\n' ∉ l) :
    (unlines ls).splitOn '\n' = ls ++ [[]] := by
  induction ls with
  | nil => simp [unlines, List.splitOn]
  | cons l ls ih =>
    have hl : '\n' ∉ l := h l (List.mem_cons_self _ _)
    have ht : ∀ l ∈ ls, '\n' ∉ l := fun x hx => h x (List.mem_cons_of_mem _ hx)
    rw [unlines_cons, List.splitOn, List.splitOnP_first]
    · have := ih ht
      rw [List.splitOn] at this
      rw [this]
      rfl
    · intro x hx hp
      have : x = '\n' := by simpa using hp
      exact hl (this ▸ hx)
    · simp

/-- The characters `print` writes are the three header lines and the data rows with their
border lines, each followed by a newline. -/
theorem print_toList (fen : String) :
    (print fen).toList =
      unlines ([borderLine, headerLine, borderLine] ++ rowLines 0 (ranks fen)) := by
  simp [print, printTo_eq]

/-- The lines of the text of `print`. -/
theorem outputLines_eq (fen : String) :
    outputLines fen =
      [borderLine, headerLine, borderLine] ++ rowLines 0 (ranks fen) ++ [[]] := by
  rw [outputLines, print_toList, splitOn_unlines]
  intro l hl
  simp only [List.mem_append, List.mem_cons, List.mem_singleton, List.not_mem_nil, or_false]
    at hl
  rcases hl with (rfl | rfl | rfl) | hl
  · decide
  · decide
  · decide
  · exact newline_not_mem_rowLines 0 _ l hl

/-! ## Counting and indexing the data rows -/

theorem rowLines_eq_flatMap (j : Nat) (segs : List (List Char)) :
    rowLines j segs = (dataRows j segs).flatMap (fun r => [r, borderLine]) := by
  induction segs generalizing j with
  | nil => rfl
  | cons seg rest ih => simp [rowLines, dataRows, ih]

theorem dataRows_length (j : Nat) (segs : List (List Char)) :
    (dataRows j segs).length = segs.length := by
  induction segs generalizing j with
  | nil => rfl
  | cons seg rest ih => simp [dataRows, ih]

theorem dataRows_getElem? (j i : Nat) (segs : List (List Char)) :
    (dataRows j segs)[i]? = (segs[i]?).map (dataRow (j + i)) := by
  induction segs generalizing j i with
  | nil => simp [dataRows]
  | cons seg rest ih =>
    cases i with
    | zero => simp [dataRows]
    | succ i =>
      simp only [dataRows, List.getElem?_cons_succ, ih]
      have : j + 1 + i = j + (i + 1) := by omega
      rw [this]

theorem rowLines_getElem? (j i : Nat) (segs : List (List Char)) (seg : List Char)
    (h : segs[i]? = some seg) :
    (rowLines j segs)[2 * i]? = some (dataRow (j + i) seg) := by
  induction segs generalizing j i with
  | nil => simp at h
  | cons s rest ih =>
    cases i with
    | zero =>
      simp at h
      simp [rowLines, h]
    | succ i =>
      simp only [List.getElem?_cons_succ] at h
      have : 2 * (i + 1) = 2 * i + 1 + 1 := by omega
      rw [this]
      simp only [rowLines, List.getElem?_cons_succ]
      rw [ih (j + 1) i h]
      have : j + 1 + i = j + (i + 1) := by omega
      rw [this]

theorem splitOn_length (cs : List Char) : (cs.splitOn '/').length = cs.count '/' + 1 := by
  induction cs with
  | nil => simp [List.splitOn]
  | cons c cs ih =>
    by_cases h : c = '/'
    · subst h
      rw [splitOn_slash]
      simp [ih]
    · rw [splitOn_other c cs h]
      have hne : (c == '/') = false := by simpa using h
      simp [ih, List.count_cons, hne]

theorem ranks_length (fen : String) : (ranks fen).length = (field fen).count '/' + 1 :=
  splitOn_length _

/-- Line `3 + 2 * j` of the text is the data row of rank description `j`. -/
theorem outputLines_row (fen : String) (j : Nat) (seg : List Char)
    (h : (ranks fen)[j]? = some seg) :
    (outputLines fen)[3 + 2 * j]? = some (dataRow j seg) := by
  have hr := rowLines_getElem? 0 j (ranks fen) seg h
  rw [Nat.zero_add] at hr
  rw [outputLines_eq]
  have h3 : 3 + 2 * j = 2 * j + 1 + 1 + 1 := by omega
  rw [h3]
  simp only [List.cons_append, List.nil_append, List.getElem?_cons_succ]
  have hlt : 2 * j < (rowLines 0 (ranks fen)).length := by
    by_contra hge
    have := List.getElem?_eq_none (Nat.le_of_not_lt hge)
    rw [this] at hr
    exact absurd hr (by simp)
  rw [List.getElem?_append_left hlt]
  exact hr

theorem rowLines_length (j : Nat) (segs : List (List Char)) :
    (rowLines j segs).length = 2 * segs.length := by
  induction segs generalizing j with
  | nil => rfl
  | cons seg rest ih => simp only [rowLines, List.length_cons, ih]; omega

theorem rowLines_getElem?_odd (j i : Nat) (segs : List (List Char)) (h : i < segs.length) :
    (rowLines j segs)[2 * i + 1]? = some borderLine := by
  induction segs generalizing j i with
  | nil => simp at h
  | cons s rest ih =>
    cases i with
    | zero => simp [rowLines]
    | succ i =>
      have : 2 * (i + 1) + 1 = 2 * i + 1 + 1 + 1 := by omega
      rw [this]
      simp only [rowLines, List.getElem?_cons_succ]
      exact ih (j + 1) i (by simpa using h)

/-- What follows the rank label in a data row starts with a space and a bar. -/
theorem rowBody_close (seg : List Char) :
    ∃ rest : List Char, rowBody seg ++ [' ', '|'] = [' ', '|'] ++ rest := by
  induction seg with
  | nil => exact ⟨[], rfl⟩
  | cons c seg ih =>
    obtain ⟨rest, hrest⟩ := ih
    rw [rowBody_cons, List.append_assoc, hrest]
    unfold cellGroups
    split
    · exact ⟨' ' :: c :: ([' ', '|'] ++ rest), by simp⟩
    · split
      · cases digitValue c with
        | zero => exact ⟨rest, by simp⟩
        | succ n =>
          exact ⟨' ' :: ' ' :: ((List.replicate n [' ', '|', ' ', ' ']).flatten ++
            ([' ', '|'] ++ rest)), by simp [List.replicate_succ]⟩
      · exact ⟨rest, by simp⟩

/-! ## The claims -/

set_option maxRecDepth 100000

theorem rowBody_eq_cellText (seg : List Char) : rowBody seg = seg.flatMap cellText := by
  induction seg with
  | nil => rfl
  | cons c seg ih =>
    rw [rowBody_cons, ih, List.flatMap_cons]
    congr 1
    unfold cellGroups cellText
    split
    · simp
    · split <;> simp

/-- C1: with `k` the number of `/` characters before the first space, the lines after the
three header lines are exactly `k + 1` data rows, each immediately followed by one border
line, and the text ends with the newline of the last border. Data row `i` starts with the
marker `| ` and its rank label and ends with ` |`. The input `8` gives one data row followed
directly by the closing border. -/
theorem print_data_row_count :
    (∀ fen : String, ∃ rows : List (List Char),
      rows.length = (field fen).count '/' + 1 ∧
      outputLines fen =
        [borderLine, headerLine, borderLine] ++ rows.flatMap (fun r => [r, borderLine]) ++ [[]] ∧
      ∀ i : Fin rows.length, ∃ body : List Char,
        rows.get i = ['|', ' '] ++ rankLabel i.val ++ body ++ [' ', '|']) ∧
    print "8" = "+---+---+---+---+---+---+---+---+---+\n|   | a | b | c | d | e | f | g | h |\n+---+---+---+---+---+---+---+---+---+\n| 8 |   |   |   |   |   |   |   |   |\n+---+---+---+---+---+---+---+---+---+\n" := by
  refine ⟨fun fen => ⟨dataRows 0 (ranks fen), ?_, ?_, ?_⟩, by rfl⟩
  · rw [dataRows_length, ranks_length]
  · rw [outputLines_eq, rowLines_eq_flatMap]
  · intro i
    have hi : i.val < (ranks fen).length :=
      Nat.lt_of_lt_of_eq i.isLt (dataRows_length _ _)
    refine ⟨rowBody ((ranks fen).get ⟨i.val, hi⟩), ?_⟩
    have h1 := dataRows_getElem? 0 i.val (ranks fen)
    rw [List.getElem?_eq_getElem hi, List.getElem?_eq_getElem i.isLt] at h1
    simp only [Option.map_some', Option.some.injEq, Nat.zero_add] at h1
    rw [List.get_eq_getElem, h1]
    rfl

/-- C2: the data row of rank description `j` is the marker `| ` and the rank label, then
for each character of the description in order ` | c` for a letter `c` and ` |  ` repeated
`n` times for a digit of value `n`, then the closing ` |`. For the standard start position
the rows show `r n b q k b n r`, the pawns, four blank rows, the pawns and
`R N B Q K B N R`. -/
theorem print_row_cells :
    (∀ (fen : String) (j : Nat) (seg : List Char), (ranks fen)[j]? = some seg →
      (outputLines fen)[3 + 2 * j]? =
        some (['|', ' '] ++ rankLabel j ++ seg.flatMap cellText ++ [' ', '|'])) ∧
    print "rnbqkbnr/pppppppp/8/8/8/8/PPPPPPPP/RNBQKBNR w KQkq - 0 1" = "+---+---+---+---+---+---+---+---+---+\n|   | a | b | c | d | e | f | g | h |\n+---+---+---+---+---+---+---+---+---+\n| 8 | r | n | b | q | k | b | n | r |\n+---+---+---+---+---+---+---+---+---+\n| 7 | p | p | p | p | p | p | p | p |\n+---+---+---+---+---+---+---+---+---+\n| 6 |   |   |   |   |   |   |   |   |\n+---+---+---+---+---+---+---+---+---+\n| 5 |   |   |   |   |   |   |   |   |\n+---+---+---+---+---+---+---+---+---+\n| 4 |   |   |   |   |   |   |   |   |\n+---+---+---+---+---+---+---+---+---+\n| 3 |   |   |   |   |   |   |   |   |\n+---+---+---+---+---+---+---+---+---+\n| 2 | P | P | P | P | P | P | P | P |\n+---+---+---+---+---+---+---+---+---+\n| 1 | R | N | B | Q | K | B | N | R |\n+---+---+---+---+---+---+---+---+---+\n" := by
  refine ⟨fun fen j seg h => ?_, by rfl⟩
  rw [outputLines_row fen j seg h, dataRow, rowBody_eq_cellText]

/-- The row of rank 7 of the standard start position, as `print_row_cells` gives it. -/
theorem print_row_cells_witness :
    (outputLines "rnbqkbnr/pppppppp/8/8/8/8/PPPPPPPP/RNBQKBNR w KQkq - 0 1")[3 + 2 * 1]? =
      some (['|', ' '] ++ rankLabel 1 ++ "pppppppp".toList.flatMap cellText ++ [' ', '|']) :=
  print_row_cells.1 "rnbqkbnr/pppppppp/8/8/8/8/PPPPPPPP/RNBQKBNR w KQkq - 0 1" 1
    "pppppppp".toList (by decide)

/-- C3: with `k` the number of `/` characters before the first space, for every `j ≤ k`
data row `j` starts with `| `, the decimal text of the integer `8 - j`, and ` |`, whatever
the rank descriptions contain; past `j = 8` the labels are `0`, `-1`, `-2`, and so on. For
the empty board the labels are 8 down to 1 and every cell is blank. -/
theorem print_rank_labels :
    (∀ (fen : String) (j : Nat), j ≤ (field fen).count '/' →
      ∃ rest : List Char, (outputLines fen)[3 + 2 * j]? =
        some (['|', ' '] ++ (toString ((8 : Int) - (j : Int))).toList ++ [' ', '|'] ++ rest)) ∧
    print "8/8/8/8/8/8/8/8 w - - 0 1" = "+---+---+---+---+---+---+---+---+---+\n|   | a | b | c | d | e | f | g | h |\n+---+---+---+---+---+---+---+---+---+\n| 8 |   |   |   |   |   |   |   |   |\n+---+---+---+---+---+---+---+---+---+\n| 7 |   |   |   |   |   |   |   |   |\n+---+---+---+---+---+---+---+---+---+\n| 6 |   |   |   |   |   |   |   |   |\n+---+---+---+---+---+---+---+---+---+\n| 5 |   |   |   |   |   |   |   |   |\n+---+---+---+---+---+---+---+---+---+\n| 4 |   |   |   |   |   |   |   |   |\n+---+---+---+---+---+---+---+---+---+\n| 3 |   |   |   |   |   |   |   |   |\n+---+---+---+---+---+---+---+---+---+\n| 2 |   |   |   |   |   |   |   |   |\n+---+---+---+---+---+---+---+---+---+\n| 1 |   |   |   |   |   |   |   |   |\n+---+---+---+---+---+---+---+---+---+\n" ∧
    print "//////////" = "+---+---+---+---+---+---+---+---+---+\n|   | a | b | c | d | e | f | g | h |\n+---+---+---+---+---+---+---+---+---+\n| 8 |\n+---+---+---+---+---+---+---+---+---+\n| 7 |\n+---+---+---+---+---+---+---+---+---+\n| 6 |\n+---+---+---+---+---+---+---+---+---+\n| 5 |\n+---+---+---+---+---+---+---+---+---+\n| 4 |\n+---+---+---+---+---+---+---+---+---+\n| 3 |\n+---+---+---+---+---+---+---+---+---+\n| 2 |\n+---+---+---+---+---+---+---+---+---+\n| 1 |\n+---+---+---+---+---+---+---+---+---+\n| 0 |\n+---+---+---+---+---+---+---+---+---+\n| -1 |\n+---+---+---+---+---+---+---+---+---+\n| -2 |\n+---+---+---+---+---+---+---+---+---+\n" := by
  refine ⟨fun fen j hj => ?_, by rfl, by rfl⟩
  have hlt : j < (ranks fen).length := by rw [ranks_length]; omega
  have hseg : (ranks fen)[j]? = some ((ranks fen).get ⟨j, hlt⟩) := by
    rw [List.getElem?_eq_getElem hlt]; rfl
  rw [outputLines_row fen j _ hseg]
  obtain ⟨rest, hrest⟩ := rowBody_close ((ranks fen).get ⟨j, hlt⟩)
  exact ⟨rest, by simp only [dataRow, rankLabel, List.append_assoc, hrest]⟩

/-- The third data row of a string of ten `/` characters has the label 6. -/
theorem print_rank_labels_witness :
    ∃ rest : List Char, (outputLines "//////////")[3 + 2 * 2]? =
      some (['|', ' '] ++ (toString ((8 : Int) - ((2 : Nat) : Int))).toList ++ [' ', '|'] ++ rest) :=
  print_rank_labels.1 "//////////" 2 (by decide)

/-- C4: `print` is a total function of the string, and for every string the text starts
with a border line, has a border line as its third line, and ends with a border line; each
of them is followed by a newline, and the last newline ends the text. -/
theorem print_borders (fen : String) :
    ∃ n : Nat, 4 ≤ n ∧ (outputLines fen).length = n + 2 ∧
      (outputLines fen)[0]? = some borderLine ∧
      (outputLines fen)[2]? = some borderLine ∧
      (outputLines fen)[n]? = some borderLine ∧
      (outputLines fen)[n + 1]? = some [] := by
  have hlen := rowLines_length 0 (ranks fen)
  have hk := ranks_length fen
  have hodd := rowLines_getElem?_odd 0 ((field fen).count '/') (ranks fen) (by omega)
  refine ⟨2 * (field fen).count '/' + 4, by omega, ?_, ?_, ?_, ?_, ?_⟩
  · rw [outputLines_eq]
    simp only [List.length_append, List.length_cons, List.length_nil, hlen, hk]
    omega
  · rw [outputLines_eq]; simp
  · rw [outputLines_eq]; simp
  · rw [outputLines_eq]
    have h3 : 2 * (field fen).count '/' + 4 = 2 * (field fen).count '/' + 1 + 1 + 1 + 1 := by
      omega
    rw [h3]
    simp only [List.cons_append, List.nil_append, List.getElem?_cons_succ]
    rw [List.getElem?_append_left (by omega)]
    exact hodd
  · rw [outputLines_eq]
    have h3 : 2 * (field fen).count '/' + 4 + 1 =
        (2 * (field fen).count '/' + 2) + 1 + 1 + 1 := by omega
    rw [h3]
    simp only [List.cons_append, List.nil_append, List.getElem?_cons_succ]
    rw [List.getElem?_append_right (by omega)]
    have : 2 * (field fen).count '/' + 2 - (rowLines 0 (ranks fen)).length = 0 := by omega
    rw [this]
    rfl

/-- C5, as stated, fails: for the empty string the second line of the text is not two spaces
followed by the file cells; the code starts the header row with a bar. -/
theorem header_row_not_two_spaces : (outputLines "")[1]? ≠ some specHeaderLine := by
  rw [outputLines_eq]
  decide

/-- C5, amended: for every input the second line of the text is a bar and two spaces, then
` | f` for each file letter `f` from `a` to `h` in order, then ` |`, and a newline follows
it: the text is the first border line, a newline, that header row, a newline, and more
text, so the header row is not the last piece of the text. -/
theorem header_row (fen : String) :
    (outputLines fen)[1]? =
      some (['|', ' ', ' '] ++ fileLetters.flatMap (fun f => [' ', '|', ' ', f]) ++ [' ', '|']) ∧
    3 ≤ (outputLines fen).length ∧
    ∃ rest : List Char, (print fen).toList =
      borderLine ++ '\n' ::
        ((['|', ' ', ' '] ++ fileLetters.flatMap (fun f => [' ', '|', ' ', f]) ++ [' ', '|']) ++
          '\n' :: rest) := by
  refine ⟨?_, ?_, unlines (borderLine :: rowLines 0 (ranks fen)), ?_⟩
  · rw [outputLines_eq]; rfl
  · rw [outputLines_eq]; simp
  · rw [print_toList]
    simp only [List.cons_append, List.nil_append, unlines_cons]
    rfl

theorem print_congr (a b : String) (h : field a = field b) : print a = print b := by
  simp only [print, printTo_eq, ranks, h]

theorem field_append_space (s t : String) (h : ' ' ∉ s.toList) :
    field (s ++ " " ++ t) = field s := by
  have hs : ∀ l : List Char, ' ' ∉ l → ∀ r : List Char,
      (l ++ ' ' :: r).takeWhile (fun c => c != ' ') = l := by
    intro l
    induction l with
    | nil => intro _ r; simp
    | cons c l ih =>
      intro hl r
      have hc : c ≠ ' ' := fun e => hl (e ▸ List.mem_cons_self _ _)
      have hne : (c != ' ') = true := by simpa using hc
      rw [List.cons_append, List.takeWhile_cons, if_pos hne,
        ih (fun m => hl (List.mem_cons_of_mem _ m)) r]
  have h1 : field (s ++ " " ++ t) = s.toList := by
    have : (s ++ " " ++ t).toList = s.toList ++ ' ' :: t.toList := by
      simp [String.toList]
    rw [field, this, hs _ h]
  have h2 : field s = s.toList := by
    have := hs s.toList h []
    rw [field]
    have e : s.toList.takeWhile (fun c => c != ' ') =
        (s.toList ++ [' ']).takeWhile (fun c => c != ' ') := by
      rw [this]
      exact (List.takeWhile_eq_self_iff.mpr (fun c hc => by
        have : c ≠ ' ' := fun e => h (e ▸ hc)
        simpa using this))
    rw [e, this]
  rw [h1, h2]

/-- C6: for a string `s` without a space and any strings `t` and `u`, `print` writes the
same text for `s ++ " " ++ t`, for `s ++ " " ++ u` and for `s` alone: nothing at or after
the first space influences the text. -/
theorem print_ignores_after_space (s t u : String) (h : ' ' ∉ s.toList) :
    print (s ++ " " ++ t) = print s ∧ print (s ++ " " ++ u) = print s ∧
      print (s ++ " " ++ t) = print (s ++ " " ++ u) := by
  have ht := print_congr _ _ (field_append_space s t h)
  have hu := print_congr _ _ (field_append_space s u h)
  exact ⟨ht, hu, ht.trans hu.symm⟩

/-- A complete record of the start position renders as its piece-placement field alone. -/
theorem print_ignores_after_space_witness :
    ' ' ∉ "rnbqkbnr/pppppppp/8/8/8/8/PPPPPPPP/RNBQKBNR".toList ∧
    print ("rnbqkbnr/pppppppp/8/8/8/8/PPPPPPPP/RNBQKBNR" ++ " " ++ "w KQkq - 0 1") =
      print "rnbqkbnr/pppppppp/8/8/8/8/PPPPPPPP/RNBQKBNR" :=
  ⟨by decide, (print_ignores_after_space "rnbqkbnr/pppppppp/8/8/8/8/PPPPPPPP/RNBQKBNR"
    "w KQkq - 0 1" "b - - 3 7" (by decide)).1⟩

/-- C9, as stated, fails: the text for the empty string is not just the header row between
two border lines, and one of its lines starts with the rank label 8. -/
theorem print_empty_has_data_row :
    print "" ≠ String.mk (unlines [borderLine, headerLine, borderLine]) ∧
    ∃ l ∈ outputLines "", ∃ rest : List Char, l = ['|', ' '] ++ rankLabel 0 ++ rest := by
  refine ⟨by decide, ['|', ' ', '8', ' ', '|'], ?_, [' ', '|'], by rfl⟩
  rw [outputLines_eq]
  decide

/-- C9, amended: for the empty string `print` writes the header row between two border
lines, then one data row with the rank label 8 and no cell, then the closing border. -/
theorem print_empty : print "" = "+---+---+---+---+---+---+---+---+---+\n|   | a | b | c | d | e | f | g | h |\n+---+---+---+---+---+---+---+---+---+\n| 8 |\n+---+---+---+---+---+---+---+---+---+\n" := by
  rfl

theorem scanLoop_filter (cs : List Char) (st : Scan) :
    scanLoop (cs.filter expected) st = scanLoop cs st := by
  induction cs generalizing st with
  | nil => rfl
  | cons c cs ih =>
    by_cases hc : expected c = true
    · rw [List.filter_cons_of_pos hc]
      unfold scanLoop
      simp only [ih]
    · rw [List.filter_cons_of_neg hc]
      simp only [expected, Bool.or_eq_true, not_or, beq_iff_eq] at hc
      obtain ⟨⟨⟨ha, hd⟩, hs⟩, hsp⟩ := hc
      rw [ih]
      conv_rhs => rw [scanLoop]
      simp [ha, hd, hs, hsp]

/-- C10: deleting from the string every character that is not a letter, not a decimal
digit, not `/` and not a space leaves the text of `print` unchanged. -/
theorem print_ignores_unexpected (fen : String) :
    print (String.mk (fen.toList.filter expected)) = print fen := by
  simp only [print, printTo, String.toList, scanLoop_filter]

/-! ## Reading the cells back from the text -/

theorem isAlpha_not_isDigit (c : Char) (h : c.isAlpha = true) : c.isDigit = false := by
  simp only [Char.isAlpha, Char.isUpper, Char.isLower, Bool.or_eq_true,
    Bool.and_eq_true, decide_eq_true_eq, ge_iff_le] at h
  simp only [Char.isDigit, Bool.and_eq_false_iff, decide_eq_false_iff_not, ge_iff_le]
  simp only [UInt32.le_def, Fin.le_def] at h ⊢
  change (65 ≤ c.val.toNat ∧ c.val.toNat ≤ 90) ∨ (97 ≤ c.val.toNat ∧ c.val.toNat ≤ 122) at h
  change ¬ (48 ≤ c.val.toNat) ∨ ¬ (c.val.toNat ≤ 57)
  omega

theorem cellValues_blank (n : Nat) (r : List Char) :
    cellValues ((List.replicate n [' ', '|', ' ', ' ']).flatten ++ r) =
      List.replicate n ' ' ++ cellValues r := by
  induction n with
  | zero => simp
  | succ n ih => simp [List.replicate_succ, cellValues, ih]

theorem cellValues_rowBody (seg : List Char) :
    cellValues (rowBody seg ++ [' ', '|']) = seg.flatMap shown := by
  induction seg with
  | nil => rfl
  | cons c seg ih =>
    rw [rowBody_cons, List.append_assoc, List.flatMap_cons]
    have hs : shown c = if c.isAlpha then [c]
        else if c.isDigit then List.replicate (digitValue c) ' ' else [] := rfl
    rw [hs]
    unfold cellGroups
    split
    · simp [cellValues, ih]
    · split
      · rw [cellValues_blank, ih]
      · simp [ih]

theorem dropWhile_append_of_all (p : Char → Bool) (l r : List Char)
    (h : ∀ c ∈ l, p c = true) : (l ++ r).dropWhile p = r.dropWhile p := by
  induction l with
  | nil => rfl
  | cons a l ih =>
    rw [List.cons_append, List.dropWhile_cons, if_pos (h a (List.mem_cons_self _ _))]
    exact ih (fun c hc => h c (List.mem_cons_of_mem _ hc))

theorem rowCells_dataRow (j : Nat) (seg : List Char) :
    rowCells (dataRow j seg) = seg.flatMap shown := by
  obtain ⟨rest, hrest⟩ := rowBody_close seg
  have hd : (dataRow j seg).drop 2 = rankLabel j ++ (rowBody seg ++ [' ', '|']) := by
    simp [dataRow]
  have hl : ∀ c ∈ rankLabel j, (c != ' ') = true := by
    intro c hc
    rcases rankLabel_chars j c hc with h | h
    · have : c ≠ ' ' := fun e => absurd (e ▸ h) (by decide)
      simpa using this
    · rw [h]; decide
  rw [rowCells, hd, dropWhile_append_of_all _ _ _ hl, hrest]
  have : ([' ', '|'] ++ rest).dropWhile (fun c => c != ' ') = [' ', '|'] ++ rest := by
    simp [List.dropWhile_cons]
  rw [this, ← hrest, cellValues_rowBody]

theorem everyOther_rowLines (j : Nat) (segs : List (List Char)) :
    everyOther (rowLines j segs ++ [[]]) = dataRows j segs := by
  induction segs generalizing j with
  | nil => rfl
  | cons seg rest ih => simp [rowLines, dataRows, everyOther, ih]

theorem dataLines_outputLines (fen : String) :
    dataLines (outputLines fen) = dataRows 0 (ranks fen) := by
  rw [dataLines, outputLines_eq]
  simp only [List.cons_append, List.nil_append, List.drop_succ_cons, List.drop_zero]
  exact everyOther_rowLines 0 _

theorem flatMap_rowCells_dataRows (j : Nat) (segs : List (List Char)) :
    (dataRows j segs).flatMap rowCells = segs.flatMap (fun seg => seg.flatMap shown) := by
  induction segs generalizing j with
  | nil => rfl
  | cons seg rest ih => simp [dataRows, rowCells_dataRow, ih]

theorem filter_shown (seg : List Char) :
    (seg.flatMap shown).filter (fun v => v != ' ') = seg.filter Char.isAlpha := by
  induction seg with
  | nil => rfl
  | cons c seg ih =>
    rw [List.flatMap_cons, List.filter_append, ih]
    unfold shown
    by_cases ha : c.isAlpha = true
    · have hc : c ≠ ' ' := fun e => absurd (e ▸ ha) (by decide)
      simp [ha, hc]
    · by_cases hd : c.isDigit = true
      · simp [ha, hd]
      · simp [ha, hd]

theorem filter_splitOn (cs : List Char) :
    (cs.splitOn '/').flatMap (fun seg => seg.filter Char.isAlpha) = cs.filter Char.isAlpha := by
  induction cs with
  | nil => simp [List.splitOn]
  | cons c cs ih =>
    obtain ⟨s1, rest1, h1⟩ := splitOn_ne_nil cs
    by_cases h : c = '/'
    · subst h
      rw [splitOn_slash, List.flatMap_cons, ih]
      have : ('/' : Char).isAlpha = false := by decide
      simp [this]
    · rw [splitOn_other c cs h]
      rw [h1] at ih ⊢
      simp only [List.modifyHead_cons, List.flatMap_cons] at ih ⊢
      by_cases ha : c.isAlpha = true
      · simp only [List.filter_cons, ha, if_true, List.cons_append]
        rw [ih]
      · simp only [List.filter_cons, ha, Bool.false_eq_true, if_false]
        rw [ih]

/-- C7: the non-blank cell values of the data rows, read from the text row by row and left
to right, are exactly the letters of the piece-placement field, in order and unchanged. -/
theorem print_pieces_verbatim (fen : String) :
    ((dataLines (outputLines fen)).flatMap rowCells).filter (fun v => v != ' ') =
      (field fen).filter Char.isAlpha := by
  rw [dataLines_outputLines, flatMap_rowCells_dataRows, ← filter_splitOn (field fen),
    List.filter_flatMap]
  simp only [filter_shown, ranks]

theorem cellGroups_length (seg : List Char) :
    (seg.flatMap cellGroups).length = fileCount seg := by
  induction seg with
  | nil => rfl
  | cons c seg ih =>
    rw [List.flatMap_cons, List.length_append, ih]
    unfold fileCount cellGroups
    by_cases ha : c.isAlpha = true
    · have hd := isAlpha_not_isDigit c ha
      simp only [List.filter_cons, ha, hd, if_true, Bool.false_eq_true, if_false,
        List.length_cons, List.length_nil]
      omega
    · by_cases hd : c.isDigit = true
      · simp only [List.filter_cons, ha, hd, if_true, Bool.false_eq_true, if_false,
          List.length_replicate, List.map_cons, List.sum_cons]
        omega
      · simp only [List.filter_cons, ha, hd, Bool.false_eq_true, if_false, List.length_nil]
        omega

theorem cellGroups_shape (seg : List Char) :
    ∀ g ∈ seg.flatMap cellGroups, ∃ x : Char, g = [' ', '|', ' ', x] := by
  intro g hg
  obtain ⟨c, _, hc⟩ := List.mem_flatMap.mp hg
  rcases mem_cellGroups c g hc with ⟨_, rfl⟩ | ⟨_, _, rfl⟩
  · exact ⟨c, rfl⟩
  · exact ⟨' ', rfl⟩

/-- C8: the data row of a rank description is the marker, the rank label, then as many
four-character cell groups (a space, a bar, a space and the cell value) as the description
has letters plus the sum of the values of its digits, then the closing ` |`; nothing is
padded or cut, so a description summing to 8 gives 8 groups and any other sum a narrower or
wider row. -/
theorem print_row_cell_count (fen : String) (j : Nat) (seg : List Char)
    (h : (ranks fen)[j]? = some seg) :
    ∃ groups : List (List Char),
      groups.length = fileCount seg ∧
      (∀ g ∈ groups, ∃ x : Char, g = [' ', '|', ' ', x]) ∧
      (outputLines fen)[3 + 2 * j]? =
        some (['|', ' '] ++ rankLabel j ++ groups.flatten ++ [' ', '|']) :=
  ⟨seg.flatMap cellGroups, cellGroups_length seg, cellGroups_shape seg, by
    rw [outputLines_row fen j seg h]; rfl⟩

/-- The rank description `9` of the string `4k3/9 w` gives a row of nine cell groups, and
the description `4k3` one of eight. -/
theorem print_row_cell_count_witness :
    ((ranks "4k3/9 w")[1]? = some ['9'] ∧ fileCount ['9'] = 9 ∧
      fileCount ['4', 'k', '3'] = 8) ∧
    ∃ groups : List (List Char),
      groups.length = fileCount ['9'] ∧
      (∀ g ∈ groups, ∃ x : Char, g = [' ', '|', ' ', x]) ∧
      (outputLines "4k3/9 w")[3 + 2 * 1]? =
        some (['|', ' '] ++ rankLabel 1 ++ groups.flatten ++ [' ', '|']) :=
  ⟨by decide, print_row_cell_count "4k3/9 w" 1 ['9'] (by decide)⟩

/-! ## Alignment of a well-formed diagram -/

theorem flatten_groups_length (gs : List (List Char))
    (h : ∀ g ∈ gs, ∃ x : Char, g = [' ', '|', ' ', x]) : gs.flatten.length = 4 * gs.length := by
  induction gs with
  | nil => rfl
  | cons g gs ih =>
    obtain ⟨x, rfl⟩ := h g (List.mem_cons_self _ _)
    have := ih (fun g hg => h g (List.mem_cons_of_mem _ hg))
    simp only [List.flatten_cons, List.length_append, List.length_cons, List.length_nil, this]
    omega

theorem flatten_groups_bar (gs : List (List Char))
    (h : ∀ g ∈ gs, ∃ x : Char, g = [' ', '|', ' ', x]) (tail : List Char) (m : Nat)
    (hm : m < gs.length) : (gs.flatten ++ tail)[4 * m + 1]? = some '|' := by
  induction gs generalizing m with
  | nil => simp at hm
  | cons g gs ih =>
    obtain ⟨x, rfl⟩ := h g (List.mem_cons_self _ _)
    have hrest := ih (fun g hg => h g (List.mem_cons_of_mem _ hg))
    cases m with
    | zero => simp
    | succ m =>
      have e : 4 * (m + 1) + 1 = (4 * m + 1) + 1 + 1 + 1 + 1 := by omega
      rw [e]
      simp only [List.flatten_cons, List.cons_append, List.nil_append,
        List.getElem?_cons_succ]
      exact hrest m (by simpa using hm)

theorem rankLabel_single (j : Nat) (h : j < 8) : ∃ d : Char, rankLabel j = [d] := by
  interval_cases j <;> exact ⟨_, rfl⟩

theorem dataRow_aligned (j : Nat) (seg : List Char) (hj : j < 8) (hs : fileCount seg = 8) :
    (dataRow j seg).length = 37 ∧ ∀ k : Nat, k ≤ 9 → (dataRow j seg)[4 * k]? = some '|' := by
  obtain ⟨d, hd⟩ := rankLabel_single j hj
  have hshape := cellGroups_shape seg
  have hlen : (seg.flatMap cellGroups).length = 8 := by rw [cellGroups_length, hs]
  have hflat := flatten_groups_length _ hshape
  rw [hlen] at hflat
  have hrow : dataRow j seg =
      '|' :: ' ' :: d :: ((seg.flatMap cellGroups).flatten ++ [' ', '|']) := by
    simp [dataRow, hd, rowBody]
  rw [hrow]
  refine ⟨by simp [hflat], ?_⟩
  intro k hk
  rcases Nat.eq_zero_or_pos k with rfl | hpos
  · rfl
  · obtain ⟨m, rfl⟩ : ∃ m, k = m + 1 := ⟨k - 1, by omega⟩
    have e : 4 * (m + 1) = (4 * m + 1) + 1 + 1 + 1 := by omega
    rw [e]
    simp only [List.getElem?_cons_succ]
    by_cases hm : m < 8
    · exact flatten_groups_bar _ hshape _ m (by omega)
    · have hm8 : m = 8 := by omega
      subst hm8
      rw [List.getElem?_append_right (by omega)]
      simp [hflat]

theorem rowLines_aligned (j : Nat) (segs : List (List Char)) (hj : j + segs.length ≤ 8)
    (hs : ∀ seg ∈ segs, fileCount seg = 8) (i : Nat) (hi : i < 2 * segs.length) :
    ∃ l : List Char, (rowLines j segs)[i]? = some l ∧ l.length = 37 ∧
      ∀ k : Nat, k ≤ 9 → l[4 * k]? = some (if i % 2 = 0 then '|' else '+') := by
  induction segs generalizing j i with
  | nil => simp at hi
  | cons seg rest ih =>
    simp only [List.length_cons] at hj hi
    match i with
    | 0 =>
      have := dataRow_aligned j seg (by omega) (hs seg (List.mem_cons_self _ _))
      exact ⟨dataRow j seg, by simp [rowLines], this.1, by simpa using this.2⟩
    | 1 =>
      refine ⟨borderLine, by simp [rowLines], by decide, ?_⟩
      intro k hk
      interval_cases k <;> rfl
    | i + 2 =>
      obtain ⟨l, hl, hlen, hcol⟩ := ih (j + 1) (by omega)
        (fun seg hseg => hs seg (List.mem_cons_of_mem _ hseg)) i (by omega)
      refine ⟨l, by simpa [rowLines] using hl, hlen, ?_⟩
      have : (i + 2) % 2 = i % 2 := by omega
      rw [this]
      exact hcol

/-- C11: when the piece-placement field has 8 rank descriptions and each stands for exactly
8 files, the text is 19 lines, each of 37 characters before its newline; at every column
0, 4, 8, ..., 36 the border lines (the lines with an even index) have `+` and the header
and data rows (the lines with an odd index) have `|`. -/
theorem print_aligned (fen : String) (h8 : (ranks fen).length = 8)
    (hfiles : ∀ seg ∈ ranks fen, fileCount seg = 8) :
    (outputLines fen).length = 20 ∧ (outputLines fen)[19]? = some [] ∧
    ∀ i : Nat, i < 19 → ∃ l : List Char, (outputLines fen)[i]? = some l ∧ l.length = 37 ∧
      ∀ k : Nat, k ≤ 9 → l[4 * k]? = some (if i % 2 = 0 then '+' else '|') := by
  have hlen := rowLines_length 0 (ranks fen)
  rw [h8] at hlen
  rw [outputLines_eq]
  refine ⟨by simp [hlen], ?_, ?_⟩
  · simp only [List.cons_append, List.nil_append, List.getElem?_cons_succ]
    rw [List.getElem?_append_right (by omega)]
    simp [hlen]
  · intro i hi
    match i with
    | 0 => exact ⟨borderLine, by simp, by decide, fun k hk => by interval_cases k <;> rfl⟩
    | 1 => exact ⟨headerLine, by simp, by decide, fun k hk => by interval_cases k <;> rfl⟩
    | 2 => exact ⟨borderLine, by simp, by decide, fun k hk => by interval_cases k <;> rfl⟩
    | i + 3 =>
      obtain ⟨l, hl, hlen37, hcol⟩ := rowLines_aligned 0 (ranks fen) (by omega) hfiles i
        (by omega)
      refine ⟨l, ?_, hlen37, ?_⟩
      · simp only [List.cons_append, List.nil_append, List.getElem?_cons_succ]
        rw [List.getElem?_append_left (by omega)]
        exact hl
      · intro k hk
        have := hcol k hk
        by_cases hp : i % 2 = 0
        · have hp3 : (i + 3) % 2 ≠ 0 := by omega
          simpa [hp, hp3] using this
        · have hp3 : (i + 3) % 2 = 0 := by omega
          simpa [hp, hp3] using this

/-- The standard start position is well-formed, so its diagram is aligned. -/
theorem print_aligned_witness :
    (ranks "rnbqkbnr/pppppppp/8/8/8/8/PPPPPPPP/RNBQKBNR w KQkq - 0 1").length = 8 ∧
    (outputLines "rnbqkbnr/pppppppp/8/8/8/8/PPPPPPPP/RNBQKBNR w KQkq - 0 1").length = 20 :=
  ⟨by decide, (print_aligned "rnbqkbnr/pppppppp/8/8/8/8/PPPPPPPP/RNBQKBNR w KQkq - 0 1"
    (by decide) (by decide)).1⟩

/-! ## The characters of the text -/

theorem mem_of_mem_splitOn (cs : List Char) :
    ∀ seg ∈ cs.splitOn '/', ∀ x ∈ seg, x ∈ cs := by
  induction cs with
  | nil =>
    intro seg hseg x hx
    simp [List.splitOn] at hseg
    subst hseg
    exact hx
  | cons c cs ih =>
    obtain ⟨s1, rest1, h1⟩ := splitOn_ne_nil cs
    intro seg hseg x hx
    by_cases h : c = '/'
    · subst h
      rw [splitOn_slash] at hseg
      rcases List.mem_cons.mp hseg with rfl | hseg
      · simp at hx
      · exact List.mem_cons_of_mem _ (ih seg hseg x hx)
    · rw [splitOn_other c cs h, h1] at hseg
      rw [h1] at ih
      simp only [List.modifyHead_cons] at hseg
      rcases List.mem_cons.mp hseg with rfl | hseg
      · rcases List.mem_cons.mp hx with rfl | hx
        · exact List.mem_cons_self _ _
        · exact List.mem_cons_of_mem _ (ih s1 (List.mem_cons_self _ _) x hx)
      · exact List.mem_cons_of_mem _ (ih seg (List.mem_cons_of_mem _ hseg) x hx)

theorem mem_dataRow (j : Nat) (seg : List Char) (c : Char) (h : c ∈ dataRow j seg) :
    c = '|' ∨ c = ' ' ∨ c = '-' ∨ c.isDigit = true ∨ (c ∈ seg ∧ c.isAlpha = true) := by
  simp only [dataRow, List.mem_append, List.mem_cons, List.mem_singleton, List.not_mem_nil,
    or_false] at h
  rcases h with (((h | h) | h) | h) | (h | h)
  · exact Or.inl h
  · exact Or.inr (Or.inl h)
  · rcases rankLabel_chars j c h with h | h
    · exact Or.inr (Or.inr (Or.inr (Or.inl h)))
    · exact Or.inr (Or.inr (Or.inl h))
  · rcases mem_rowBody seg c h with h | h | h
    · exact Or.inr (Or.inl h)
    · exact Or.inl h
    · exact Or.inr (Or.inr (Or.inr (Or.inr h)))
  · exact Or.inr (Or.inl h)
  · exact Or.inl h

theorem mem_dataRows (j : Nat) (segs : List (List Char)) (l : List Char)
    (h : l ∈ dataRows j segs) : ∃ i : Nat, ∃ seg ∈ segs, l = dataRow i seg := by
  induction segs generalizing j with
  | nil => simp [dataRows] at h
  | cons seg rest ih =>
    simp only [dataRows, List.mem_cons] at h
    rcases h with rfl | h
    · exact ⟨j, seg, List.mem_cons_self _ _, rfl⟩
    · obtain ⟨i, sg, hsg, hl⟩ := ih (j + 1) h
      exact ⟨i, sg, List.mem_cons_of_mem _ hsg, hl⟩

theorem mem_rowLines (j : Nat) (segs : List (List Char)) (l : List Char)
    (h : l ∈ rowLines j segs) : l = borderLine ∨ l ∈ dataRows j segs := by
  rw [rowLines_eq_flatMap] at h
  obtain ⟨r, hr, hl⟩ := List.mem_flatMap.mp h
  simp only [List.mem_cons, List.mem_singleton, List.not_mem_nil, or_false] at hl
  rcases hl with rfl | rfl
  · exact Or.inr hr
  · exact Or.inl rfl

/-- C12: every character of every line of the text is `+`, `-`, `|`, a space, a decimal
digit or a letter, and every letter of a data row is a character of the piece-placement
field, hence of the input. -/
theorem print_characters (fen : String) :
    (∀ l ∈ outputLines fen, ∀ c ∈ l,
      c = '+' ∨ c = '-' ∨ c = '|' ∨ c = ' ' ∨ c.isDigit = true ∨ c.isAlpha = true) ∧
    (∀ l ∈ dataLines (outputLines fen), ∀ c ∈ l,
      c.isAlpha = true → c ∈ field fen ∧ c ∈ fen.toList) := by
  have hrow : ∀ l ∈ dataRows 0 (ranks fen), ∀ c ∈ l,
      c = '|' ∨ c = ' ' ∨ c = '-' ∨ c.isDigit = true ∨ (c ∈ field fen ∧ c.isAlpha = true) := by
    intro l hl c hc
    obtain ⟨i, seg, hseg, rfl⟩ := mem_dataRows 0 _ l hl
    rcases mem_dataRow i seg c hc with h | h | h | h | ⟨h, ha⟩
    · exact Or.inl h
    · exact Or.inr (Or.inl h)
    · exact Or.inr (Or.inr (Or.inl h))
    · exact Or.inr (Or.inr (Or.inr (Or.inl h)))
    · exact Or.inr (Or.inr (Or.inr (Or.inr ⟨mem_of_mem_splitOn _ seg hseg c h, ha⟩)))
  have hborder : ∀ c ∈ borderLine, c = '+' ∨ c = '-' := by decide
  have hheader : ∀ c ∈ headerLine, c = '|' ∨ c = ' ' ∨ c.isAlpha = true := by decide
  constructor
  · intro l hl c hc
    rw [outputLines_eq] at hl
    simp only [List.mem_append, List.mem_cons, List.mem_singleton, List.not_mem_nil,
      or_false] at hl
    rcases hl with ((rfl | rfl | rfl) | hl) | rfl
    · rcases hborder c hc with h | h
      · exact Or.inl h
      · exact Or.inr (Or.inl h)
    · rcases hheader c hc with h | h | h
      · exact Or.inr (Or.inr (Or.inl h))
      · exact Or.inr (Or.inr (Or.inr (Or.inl h)))
      · exact Or.inr (Or.inr (Or.inr (Or.inr (Or.inr h))))
    · rcases hborder c hc with h | h
      · exact Or.inl h
      · exact Or.inr (Or.inl h)
    · rcases mem_rowLines 0 _ l hl with rfl | hl
      · rcases hborder c hc with h | h
        · exact Or.inl h
        · exact Or.inr (Or.inl h)
      · rcases hrow l hl c hc with h | h | h | h | ⟨_, h⟩
        · exact Or.inr (Or.inr (Or.inl h))
        · exact Or.inr (Or.inr (Or.inr (Or.inl h)))
        · exact Or.inr (Or.inl h)
        · exact Or.inr (Or.inr (Or.inr (Or.inr (Or.inl h))))
        · exact Or.inr (Or.inr (Or.inr (Or.inr (Or.inr h))))
    · simp at hc
  · intro l hl c hc ha
    rw [dataLines_outputLines] at hl
    have hnd : c.isDigit = false := isAlpha_not_isDigit c ha
    rcases hrow l hl c hc with h | h | h | h | ⟨h, _⟩
    · exact absurd (h ▸ ha) (by decide)
    · exact absurd (h ▸ ha) (by decide)
    · exact absurd (h ▸ ha) (by decide)
    · rw [hnd] at h; exact absurd h (by decide)
    · exact ⟨h, (List.takeWhile_sublist _).subset h⟩

/-! ## Digits -/

theorem digitValue_le (c : Char) (h : c.isDigit = true) : digitValue c ≤ 9 := by
  simp only [Char.isDigit, Bool.and_eq_true, decide_eq_true_eq, ge_iff_le] at h
  simp only [UInt32.le_def, Fin.le_def] at h
  change 48 ≤ c.val.toNat ∧ c.val.toNat ≤ 57 at h
  change c.val.toNat - 48 ≤ 9
  omega

theorem isDigit_not_isAlpha (c : Char) (h : c.isDigit = true) : c.isAlpha = false := by
  by_contra ha
  have ha2 : c.isAlpha = true := by simpa using ha
  rw [isAlpha_not_isDigit c ha2] at h
  exact absurd h (by decide)

theorem scanLoop_digit (c : Char) (h : c.isDigit = true) (cs : List Char) (st : Scan) :
    scanLoop (c :: cs) st = scanLoop cs
      { st with cout := st.cout ++ (List.replicate (digitValue c) [' ', '|', ' ', ' ']).flatten } := by
  rw [scanLoop]
  simp only [isDigit_not_isAlpha c h, h, Bool.false_eq_true, if_false, if_true, emptyLoop_eq]
  rfl

/-- C13: a decimal digit in the scan writes exactly as many blank cells as its face value,
which is at most 9, so the empty-run loop runs at most 9 times; the digit `0` writes
nothing and the digit `9` writes nine blank cells. -/
theorem digit_emits_face_value :
    (∀ (c : Char), c.isDigit = true → ∀ (cs : List Char) (st : Scan),
      digitValue c ≤ 9 ∧
      emptyLoop c.toNat st.cout =
        st.cout ++ (List.replicate (digitValue c) [' ', '|', ' ', ' ']).flatten ∧
      (emptyLoop c.toNat st.cout).length = st.cout.length + 4 * digitValue c ∧
      scanLoop (c :: cs) st = scanLoop cs
        { st with
          cout := st.cout ++ (List.replicate (digitValue c) [' ', '|', ' ', ' ']).flatten }) ∧
    (∀ cout : List Char, emptyLoop '0'.toNat cout = cout) ∧
    (∀ cout : List Char, emptyLoop '9'.toNat cout =
      cout ++ (List.replicate 9 [' ', '|', ' ', ' ']).flatten) ∧
    print "0" = print "" ∧
    print "9" = "+---+---+---+---+---+---+---+---+---+\n|   | a | b | c | d | e | f | g | h |\n+---+---+---+---+---+---+---+---+---+\n| 8 |   |   |   |   |   |   |   |   |   |\n+---+---+---+---+---+---+---+---+---+\n" := by
  refine ⟨fun c h cs st => ⟨digitValue_le c h, ?_, ?_, scanLoop_digit c h cs st⟩,
    fun cout => ?_, fun cout => ?_, by rfl, by rfl⟩
  · rw [emptyLoop_eq]; rfl
  · rw [emptyLoop_eq]
    have : ∀ n : Nat, ((List.replicate n [' ', '|', ' ', ' ']).flatten).length = 4 * n := by
      intro n
      induction n with
      | zero => rfl
      | succ n ih => simp only [List.replicate_succ, List.flatten_cons, List.length_append, ih,
          List.length_cons, List.length_nil]; omega
    rw [List.length_append, this]; rfl
  · rw [emptyLoop_eq]; simp
  · rw [emptyLoop_eq]; rfl

/-- The digit `5` followed by a letter, on an arbitrary state of the scan. -/
theorem digit_emits_face_value_witness :
    digitValue '5' ≤ 9 ∧
    emptyLoop '5'.toNat ['|', ' ', '8'] =
      ['|', ' ', '8'] ++ (List.replicate (digitValue '5') [' ', '|', ' ', ' ']).flatten :=
  ⟨(digit_emits_face_value.1 '5' (by decide) ['k'] ⟨['|', ' ', '8'], 1⟩).1,
    (digit_emits_face_value.1 '5' (by decide) ['k'] ⟨['|', ' ', '8'], 1⟩).2.1⟩

/-! ## Calls on a stream with formatting state -/

theorem replicate_flatten_add (m n : Nat) :
    (List.replicate (m + n) [' ', '|', ' ', ' ']).flatten =
      (List.replicate m [' ', '|', ' ', ' ']).flatten ++
        (List.replicate n [' ', '|', ' ', ' ']).flatten := by
  rw [List.replicate_add, List.flatten_append]

theorem scanLoop_digits (ds : List Char) (hds : ∀ c ∈ ds, c.isDigit = true) (cs : List Char)
    (st : Scan) :
    scanLoop (ds ++ cs) st = scanLoop cs
      { st with
        cout := st.cout ++
          (List.replicate (ds.map digitValue).sum [' ', '|', ' ', ' ']).flatten } := by
  induction ds generalizing st with
  | nil => simp
  | cons d ds ih =>
    rw [List.cons_append, scanLoop_digit d (hds d (List.mem_cons_self _ _)),
      ih (fun c hc => hds c (List.mem_cons_of_mem _ hc))]
    simp only [List.map_cons, List.sum_cons, replicate_flatten_add, List.append_assoc]

theorem scanLoop_append_congr (a b : List Char) (h : ∀ st : Scan, scanLoop a st = scanLoop b st)
    (pre : List Char) (st : Scan) : scanLoop (pre ++ a) st = scanLoop (pre ++ b) st := by
  induction pre generalizing st with
  | nil => exact h st
  | cons c pre ih =>
    simp only [List.cons_append]
    rw [scanLoop, scanLoop]
    simp only [ih]

theorem print_of_scanLoop (a b : List Char) (h : ∀ st : Scan, scanLoop a st = scanLoop b st) :
    print (String.mk a) = print (String.mk b) := by
  simp only [print, printTo, String.toList, h]

/-- C16: replacing a run of digits in the string by another run of digits with the same sum
of values leaves the text unchanged; in particular a digit `d` may be replaced by `d`
copies of `1`, and `44` or `17` by `8`. So two different fields can give the same text. -/
theorem print_runs_additive :
    (∀ (pre post ds1 ds2 : List Char), (∀ c ∈ ds1, c.isDigit = true) →
      (∀ c ∈ ds2, c.isDigit = true) → (ds1.map digitValue).sum = (ds2.map digitValue).sum →
      print (String.mk (pre ++ ds1 ++ post)) = print (String.mk (pre ++ ds2 ++ post))) ∧
    (∀ (pre post : List Char) (d : Char), d.isDigit = true →
      print (String.mk (pre ++ [d] ++ post)) =
        print (String.mk (pre ++ List.replicate (digitValue d) '1' ++ post))) ∧
    print "44" = print "8" ∧ print "17" = print "8" ∧
    (∃ a b : String, a ≠ b ∧ ' ' ∉ a.toList ∧ ' ' ∉ b.toList ∧ print a = print b) := by
  have hgen : ∀ (pre post ds1 ds2 : List Char), (∀ c ∈ ds1, c.isDigit = true) →
      (∀ c ∈ ds2, c.isDigit = true) → (ds1.map digitValue).sum = (ds2.map digitValue).sum →
      print (String.mk (pre ++ ds1 ++ post)) = print (String.mk (pre ++ ds2 ++ post)) := by
    intro pre post ds1 ds2 h1 h2 hsum
    rw [List.append_assoc, List.append_assoc]
    apply print_of_scanLoop
    apply scanLoop_append_congr
    intro st
    rw [scanLoop_digits ds1 h1, scanLoop_digits ds2 h2, hsum]
  refine ⟨hgen, ?_, by rfl, by rfl, "44", "8", by decide, by decide, by decide, by rfl⟩
  intro pre post d hd
  apply hgen
  · intro c hc
    rw [List.mem_singleton.mp hc]; exact hd
  · intro c hc
    rw [List.eq_of_mem_replicate hc]; decide
  · have h1 : digitValue '1' = 1 := by decide
    simp [h1]

/-- The runs `3` `5` and `8` in the second rank of a field. -/
theorem print_runs_additive_witness :
    print (String.mk ("4k3/".toList ++ ['3', '5'] ++ "/8 w".toList)) =
      print (String.mk ("4k3/".toList ++ ['8'] ++ "/8 w".toList)) :=
  print_runs_additive.1 "4k3/".toList "/8 w".toList ['3', '5'] ['8'] (by decide) (by decide)
    (by decide)

theorem printTo_scanText (fen : String) (cout : List Char) :
    printTo fen cout = cout ++ (headText ++ (scanText 1 fen.toList ++ rowEnd)) := by
  simp only [printTo, fileLoop_eq, borderLoop_eq, scanLoop_cout]
  simp only [put, putInt, List.append_assoc]
  simp [headText, rowEnd, unlines]

theorem scanText_append (a b : List Char) (h : ' ' ∉ a) (cnt : Int) :
    ∃ cnt2 : Int, scanText cnt (a ++ b) = scanText cnt a ++ scanText cnt2 b := by
  induction a generalizing cnt with
  | nil => exact ⟨cnt, rfl⟩
  | cons c a ih =>
    have ha : ' ' ∉ a := fun m => h (List.mem_cons_of_mem _ m)
    have hc : c ≠ ' ' := fun e => h (e ▸ List.mem_cons_self _ _)
    by_cases hs : c = '/'
    · subst hs
      obtain ⟨cnt2, h2⟩ := ih ha (cnt + 1)
      refine ⟨cnt2, ?_⟩
      rw [List.cons_append, scanText_slash, scanText_slash, h2]
      simp only [List.append_assoc]
    · obtain ⟨cnt2, h2⟩ := ih ha cnt
      refine ⟨cnt2, ?_⟩
      rw [List.cons_append, scanText_cell _ _ _ hs hc, scanText_cell _ _ _ hs hc, h2,
        List.append_assoc]

/-- C17: for a string `s` without a space and any string `t`, the text for `s` without its
last 41 characters (the closing ` |`, its newline, and the final border line) is a prefix
of the text for `s ++ t`. -/
theorem print_streaming (s t : String) (h : ' ' ∉ s.toList) :
    ∃ rest : List Char, (print (s ++ t)).toList =
      (print s).toList.take ((print s).toList.length - 41) ++ rest := by
  have hs : (print s).toList = (headText ++ scanText 1 s.toList) ++ rowEnd := by
    simp [print, printTo_scanText]
  have hst : (s ++ t).toList = s.toList ++ t.toList := by simp [String.toList]
  obtain ⟨cnt2, h2⟩ := scanText_append s.toList t.toList h 1
  have hlen : rowEnd.length = 41 := by decide
  refine ⟨scanText cnt2 t.toList ++ rowEnd, ?_⟩
  have htake : (print s).toList.take ((print s).toList.length - 41) =
      headText ++ scanText 1 s.toList := by
    rw [hs, List.length_append, hlen, Nat.add_sub_cancel, List.take_left']
    rfl
  have hfull : (print (s ++ t)).toList =
      headText ++ (scanText 1 (s ++ t).toList ++ rowEnd) := by
    simp only [print, printTo_scanText, String.toList, List.nil_append]
  rw [htake, hfull, hst, h2]
  simp only [List.append_assoc]

/-- Two ranks of the start position, then the rest of the record. -/
theorem print_streaming_witness :
    ' ' ∉ "rnbqkbnr/pp".toList ∧
    ∃ rest : List Char, (print ("rnbqkbnr/pp" ++ "pppppp/8 w")).toList =
      (print "rnbqkbnr/pp").toList.take ((print "rnbqkbnr/pp").toList.length - 41) ++ rest :=
  ⟨by decide, print_streaming "rnbqkbnr/pp" "pppppp/8 w" (by decide)⟩

/-! ## More than seven separators -/

/-- C15, as stated, fails: the field `////////` has 8 `/` characters, yet line 19 of its
text is a ninth data row, with the label 0, and a letter after the 8th `/` changes the
text. -/
theorem print_continues_after_eighth_slash :
    (field "////////").count '/' = 8 ∧
    (outputLines "////////")[19]? = some ['|', ' ', '0', ' ', '|'] ∧
    print "////////k" ≠ print "////////" := by
  refine ⟨by decide, ?_, by decide⟩
  rw [outputLines_eq]
  decide

/-- C15, amended: a `/` never ends the scan. When the piece-placement field has 8 or more
`/` characters, the text still has one data row for each `/` and one more, and its ninth
data row carries the label 0 and shows the rank description after the 8th `/`. -/
theorem print_rows_past_eighth_slash (fen : String) (h : 8 ≤ (field fen).count '/') :
    (outputLines fen).length = 2 * (field fen).count '/' + 6 ∧
    ∃ seg : List Char, (ranks fen)[8]? = some seg ∧
      (outputLines fen)[19]? = some (['|', ' ', '0'] ++ seg.flatMap cellText ++ [' ', '|']) := by
  have hk := ranks_length fen
  have hlen := rowLines_length 0 (ranks fen)
  constructor
  · rw [outputLines_eq]
    simp only [List.length_append, List.length_cons, List.length_nil, hlen, hk]
    omega
  · have hlt : 8 < (ranks fen).length := by omega
    refine ⟨(ranks fen)[8], List.getElem?_eq_getElem hlt, ?_⟩
    have := outputLines_row fen 8 _ (List.getElem?_eq_getElem hlt)
    rw [show 3 + 2 * 8 = 19 from rfl] at this
    rw [this, dataRow, rowBody_eq_cellText]
    rfl

/-- A field of nine ranks: the ninth row shows the letter after the 8th separator. -/
theorem print_rows_past_eighth_slash_witness :
    8 ≤ (field "////////k w").count '/' ∧
    (outputLines "////////k w").length = 2 * (field "////////k w").count '/' + 6 :=
  ⟨by decide, (print_rows_past_eighth_slash "////////k w" (by decide)).1⟩

end cpp_client.chess
